import Mathlib

/-!
Shallow embedding of the Bitcoin wire-format codec library
(`src/lib.rs` of the repository): CompactSize variable-length
integers, OutPoint references, Scripts, TransactionInputs and
BitcoinTransactions, with their `to_bytes` / `from_bytes` pairs.

Bytes are modelled as `Fin 256` (Rust `u8`), buffers as `List Byte`
(Rust `&[u8]` / `Vec<u8>`), and `u64` / `u32` / `usize` values as `Nat`
with explicit `% 2 ^ w` reductions exactly where the Rust code casts or
where machine addition can overflow.  Decoders return a
`DecodeOutcome`: `ok value consumed` for `Ok((value, consumed))`,
`err e` for `Err(e)`, and `abort` for a Rust panic (which escapes the
`Result` type in the source).  The target is a 64-bit platform, so
`usize` arithmetic is arithmetic modulo `2 ^ 64`.
-/

namespace BitcoinCodec

abbrev Byte := Fin 256

/-- Little-endian byte decomposition of a natural number into `k` bytes,
modelling Rust's `uN::to_le_bytes` applied to `n % 2 ^ (8 * k)`. -/
def toLE : Nat → Nat → List Byte
  | 0, _ => []
  | k + 1, n => ⟨n % 256, Nat.mod_lt _ (by norm_num)⟩ :: toLE k (n / 256)

/-- Little-endian recomposition of a byte list into a natural number,
modelling Rust's `uN::from_le_bytes`. -/
def fromLE : List Byte → Nat
  | [] => 0
  | b :: rest => b.val + 256 * fromLE rest

/-- The error enum `BitcoinError` of the source. -/
inductive BitcoinError where
  | insufficientBytes
  | invalidFormat
deriving DecidableEq, Repr

/-- Outcome of running a decoder: a successful `Ok((value, consumed))`,
an `Err(e)`, or `abort` for a Rust panic (arithmetic-overflow panic in a
debug build, out-of-range slice panic in a release build). -/
inductive DecodeOutcome (α : Type) where
  | ok (val : α) (consumed : Nat)
  | err (e : BitcoinError)
  | abort
deriving DecidableEq, Repr

/-- Model of `struct CompactSize { pub value: u64 }`.  The `u64` range
(`value < 2 ^ 64`) is carried as a validity hypothesis where needed. -/
structure CompactSize where
  value : Nat
deriving DecidableEq, Repr

/-- Model of `CompactSize::to_bytes`.  Each arm pushes the marker byte (none for
the one-byte class) and then the value cast to the class width, little
endian; `toLE k v` is exactly the LE bytes of `v % 2 ^ (8 * k)`, which
is what the Rust `as u16` / `as u32` casts (and the identity `u64` case,
given `value < 2 ^ 64`) produce. -/
def CompactSize.to_bytes (cs : CompactSize) : List Byte :=
  if cs.value ≤ 252 then toLE 1 cs.value
  else if cs.value ≤ 65535 then (0xFD : Byte) :: toLE 2 cs.value
  else if cs.value ≤ 4294967295 then (0xFE : Byte) :: toLE 4 cs.value
  else (0xFF : Byte) :: toLE 8 cs.value

/-- Model of `CompactSize::from_bytes`.  The Rust `match bytes[0]` has arms
`0..=252`, `0xFD`, `0xFE`, `0xFF`, exhaustive over `u8`; the final
`else` below is reached exactly when the first byte is `0xFF`.  The
Rust guards `bytes.len() < 3 / 5 / 9` are `rest.length < 2 / 4 / 8`
for `bytes = b :: rest`. -/
def CompactSize.from_bytes : List Byte → DecodeOutcome CompactSize
  | [] => .err .insufficientBytes
  | b :: rest =>
    if b.val ≤ 252 then .ok ⟨b.val⟩ 1
    else if b.val = 0xFD then
      if rest.length < 2 then .err .insufficientBytes
      else .ok ⟨fromLE (rest.take 2)⟩ 3
    else if b.val = 0xFE then
      if rest.length < 4 then .err .insufficientBytes
      else .ok ⟨fromLE (rest.take 4)⟩ 5
    else
      if rest.length < 8 then .err .insufficientBytes
      else .ok ⟨fromLE (rest.take 8)⟩ 9

theorem toLE_length (k n : Nat) : (toLE k n).length = k := by
  induction k generalizing n with
  | zero => rfl
  | succ k ih => simp [toLE, ih]

theorem fromLE_toLE (k n : Nat) : fromLE (toLE k n) = n % 256 ^ k := by
  induction k generalizing n with
  | zero => simp [toLE, fromLE, Nat.mod_one]
  | succ k ih =>
    simp only [toLE, fromLE, ih]
    rw [Nat.pow_succ, Nat.mul_comm (256 ^ k) 256]
    have h1 : n % (256 * 256 ^ k) % 256 = n % 256 :=
      Nat.mod_mod_of_dvd n ⟨256 ^ k, rfl⟩
    have h2 : n % (256 * 256 ^ k) / 256 = n / 256 % 256 ^ k :=
      Nat.mod_mul_right_div_self n 256 (256 ^ k)
    generalize n % (256 * 256 ^ k) = A at h1 h2
    omega

theorem fromLE_lt (l : List Byte) : fromLE l < 256 ^ l.length := by
  induction l with
  | nil => simp [fromLE]
  | cons b rest ih =>
    have hb : b.val < 256 := b.isLt
    simp only [fromLE, List.length_cons, Nat.pow_succ, Nat.mul_comm (256 ^ rest.length) 256]
    generalize 256 ^ rest.length = P at ih ⊢
    omega

theorem fromLE_toLE_full (k n : Nat) : fromLE ((toLE k n).take k) = n % 256 ^ k := by
  have h : (toLE k n).take k = toLE k n :=
    List.take_of_length_le (le_of_eq (toLE_length k n))
  rw [h, fromLE_toLE]

/-- Model of `struct OutPoint { pub txid: Txid, pub vout: u32 }`; the `Txid`
newtype around `[u8; 32]` is modelled as the byte list itself, its
fixed length 32 carried as a validity hypothesis. -/
structure OutPoint where
  txid : List Byte
  vout : Nat
deriving DecidableEq, Repr

/-- Model of `OutPoint::to_bytes`: the 32 txid bytes, then `vout.to_le_bytes()`. -/
def OutPoint.to_bytes (p : OutPoint) : List Byte :=
  p.txid ++ toLE 4 p.vout

/-- Model of `OutPoint::from_bytes`: length check against 36, then
`txid = bytes[0..32]` and `vout = u32::from_le_bytes(bytes[32..36])`. -/
def OutPoint.from_bytes (bytes : List Byte) : DecodeOutcome OutPoint :=
  if bytes.length < 36 then .err .insufficientBytes
  else .ok ⟨bytes.take 32, fromLE ((bytes.drop 32).take 4)⟩ 36

/-- Model of `struct Script { pub bytes: Vec<u8> }`. -/
structure Script where
  bytes : List Byte
deriving DecidableEq, Repr

/-- Model of `Script::to_bytes`: the CompactSize encoding of
`self.bytes.len() as u64` followed by the raw bytes.  On the 64-bit
target the `usize → u64` cast is the identity (`Vec` lengths are below
`isize::MAX < 2 ^ 64`). -/
def Script.to_bytes (s : Script) : List Byte :=
  (CompactSize.mk s.bytes.length).to_bytes ++ s.bytes

/-- Model of `Script::from_bytes`.  The Rust code computes
`consumed + script_len` in `usize` and then slices
`bytes[consumed..consumed + script_len]`.  When the true sum reaches
`2 ^ 64` this panics on either build profile: a debug build panics at
the addition itself, and a release build wraps the sum to
`e = consumed + script_len - 2 ^ 64 < consumed ≤ bytes.len()`, so the
`bytes.len() < e` guard passes and the slice `consumed..e` with
`consumed > e` panics.  Both profiles therefore abort exactly when
`consumed + script_len ≥ 2 ^ 64`, which is the first branch below; in
the remaining branches the `usize` sum equals the `Nat` sum. -/
def Script.from_bytes (bytes : List Byte) : DecodeOutcome Script :=
  match CompactSize.from_bytes bytes with
  | .ok length consumed =>
    let script_len := length.value
    if 2 ^ 64 ≤ consumed + script_len then .abort
    else if bytes.length < consumed + script_len then .err .insufficientBytes
    else .ok ⟨(bytes.drop consumed).take script_len⟩ (consumed + script_len)
  | .err e => .err e
  | .abort => .abort

/-- Model of `struct TransactionInput`. -/
structure TransactionInput where
  previous_output : OutPoint
  script_sig : Script
  sequence : Nat
deriving DecidableEq, Repr

/-- Model of `TransactionInput::to_bytes`: outpoint bytes, script bytes, then
`sequence.to_le_bytes()`. -/
def TransactionInput.to_bytes (i : TransactionInput) : List Byte :=
  i.previous_output.to_bytes ++ i.script_sig.to_bytes ++ toLE 4 i.sequence

/-- Model of `TransactionInput::from_bytes`: decode an OutPoint at the front,
a Script from the rest (`&bytes[cursor..]` is `bytes.drop cursor`),
check four bytes remain for `sequence`, and add up the cursor. -/
def TransactionInput.from_bytes (bytes : List Byte) : DecodeOutcome TransactionInput :=
  match OutPoint.from_bytes bytes with
  | .ok previous_output c₁ =>
    match Script.from_bytes (bytes.drop c₁) with
    | .ok script_sig c₂ =>
      if bytes.length < c₁ + c₂ + 4 then .err .insufficientBytes
      else .ok ⟨previous_output, script_sig, fromLE ((bytes.drop (c₁ + c₂)).take 4)⟩
             (c₁ + c₂ + 4)
    | .err e => .err e
    | .abort => .abort
  | .err e => .err e
  | .abort => .abort

/-- Model of `struct BitcoinTransaction`. -/
structure BitcoinTransaction where
  version : Nat
  inputs : List TransactionInput
  lock_time : Nat
deriving DecidableEq, Repr

/-- Model of `BitcoinTransaction::to_bytes`: version (4 bytes LE), input count as
CompactSize, each input's bytes in order, lock time (4 bytes LE). -/
def BitcoinTransaction.to_bytes (tx : BitcoinTransaction) : List Byte :=
  toLE 4 tx.version ++ (CompactSize.mk tx.inputs.length).to_bytes ++
    (tx.inputs.map TransactionInput.to_bytes).flatten ++ toLE 4 tx.lock_time

/-- The `for _ in 0..input_count.value` loop of
`BitcoinTransaction::from_bytes`: decode `n` TransactionInputs one
after the other, each from the rest of the buffer, accumulating the
inputs in order and the total bytes consumed. -/
def readInputs : Nat → List Byte → DecodeOutcome (List TransactionInput)
  | 0, _ => .ok [] 0
  | n + 1, bytes =>
    match TransactionInput.from_bytes bytes with
    | .ok i c =>
      match readInputs n (bytes.drop c) with
      | .ok is c' => .ok (i :: is) (c + c')
      | .err e => .err e
      | .abort => .abort
    | .err e => .err e
    | .abort => .abort

/-- Model of `BitcoinTransaction::from_bytes`: version (needs 4 bytes), input
count as CompactSize, then `Vec::with_capacity(input_count.value as usize)`,
`count` inputs via the loop, then lock time (needs 4 more bytes); the final
cursor is returned as consumed.

The `Vec::with_capacity` call before the loop panics with "capacity
overflow" — deterministically, in both build profiles, inside
`Layout::array` before any allocation is attempted — exactly when the
requested byte size `count * size_of::<TransactionInput>()` exceeds
`isize::MAX = 2 ^ 63 - 1`.  On the 64-bit target `TransactionInput`
occupies 64 bytes (a 24-byte `Vec<u8>` header, a 32-byte txid array and
two `u32` fields, padded to alignment 8), so the panic condition is
`2 ^ 63 - 1 < count * 64`, the second branch below.  For counts under
that bound the call merely requests memory; a failed allocation is an
allocator-dependent abort and is not modelled. -/
def BitcoinTransaction.from_bytes (bytes : List Byte) : DecodeOutcome BitcoinTransaction :=
  if bytes.length < 4 then .err .insufficientBytes
  else
    match CompactSize.from_bytes (bytes.drop 4) with
    | .ok input_count c =>
      if 2 ^ 63 - 1 < input_count.value * 64 then .abort
      else
        match readInputs input_count.value (bytes.drop (4 + c)) with
        | .ok inputs c' =>
          if bytes.length < 4 + c + c' + 4 then .err .insufficientBytes
          else .ok ⟨fromLE (bytes.take 4), inputs, fromLE ((bytes.drop (4 + c + c')).take 4)⟩
                 (4 + c + c' + 4)
        | .err e => .err e
        | .abort => .abort
    | .err e => .err e
    | .abort => .abort

/-- The `u64` range invariant of `CompactSize.value`. -/
def CompactSize.valid (cs : CompactSize) : Prop := cs.value < 2 ^ 64

/-- Rust-representable OutPoint: a 32-byte txid and a `u32` vout. -/
def OutPoint.valid (p : OutPoint) : Prop := p.txid.length = 32 ∧ p.vout < 2 ^ 32

/-- Rust-representable Script: a `Vec<u8>` holds at most
`isize::MAX = 2 ^ 63 - 1` bytes. -/
def Script.valid (s : Script) : Prop := s.bytes.length < 2 ^ 63

/-- Rust-representable TransactionInput: valid components and a `u32`
sequence number. -/
def TransactionInput.valid (i : TransactionInput) : Prop :=
  i.previous_output.valid ∧ i.script_sig.valid ∧ i.sequence < 2 ^ 32

/-- Rust-representable BitcoinTransaction: `u32` version and lock time,
a `Vec`-representable input list, every input valid.  A
`Vec<TransactionInput>` holds at most
`isize::MAX / size_of::<TransactionInput>() = (2 ^ 63 - 1) / 64 =
2 ^ 57 - 1` elements, hence the `2 ^ 57` bound on the input count. -/
def BitcoinTransaction.valid (tx : BitcoinTransaction) : Prop :=
  tx.version < 2 ^ 32 ∧ tx.lock_time < 2 ^ 32 ∧ tx.inputs.length < 2 ^ 57 ∧
    ∀ i ∈ tx.inputs, i.valid

instance : DecidablePred CompactSize.valid := fun _ => by
  unfold CompactSize.valid; infer_instance

instance : DecidablePred OutPoint.valid := fun _ => by
  unfold OutPoint.valid; infer_instance

instance : DecidablePred Script.valid := fun _ => by
  unfold Script.valid; infer_instance

instance : DecidablePred TransactionInput.valid := fun _ => by
  unfold TransactionInput.valid; infer_instance

instance : DecidablePred BitcoinTransaction.valid := fun _ => by
  unfold BitcoinTransaction.valid; infer_instance

theorem CompactSize.compact_consumed_le {b : List Byte} {v : CompactSize} {n : Nat}
    (h : CompactSize.from_bytes b = .ok v n) : n ≤ b.length := by
  cases b with
  | nil => simp [CompactSize.from_bytes] at h
  | cons x rest =>
    simp only [CompactSize.from_bytes] at h
    repeat' split at h
    all_goals simp_all
    all_goals omega

theorem CompactSize.compact_from_bytes_append {b s : List Byte} {v : CompactSize} {n : Nat}
    (h : CompactSize.from_bytes b = .ok v n) :
    CompactSize.from_bytes (b ++ s) = .ok v n := by
  cases b with
  | nil => simp [CompactSize.from_bytes] at h
  | cons x rest =>
    simp only [CompactSize.from_bytes, List.cons_append] at h ⊢
    by_cases h1 : x.val ≤ 252
    · simpa only [if_pos h1] using h
    · simp only [if_neg h1] at h ⊢
      by_cases h2 : x.val = 0xFD
      · simp only [if_pos h2] at h ⊢
        by_cases h3 : rest.length < 2
        · simp [if_pos h3] at h
        · simp only [if_neg h3] at h
          have h4 : ¬((rest ++ s).length < 2) := by simp [List.length_append]; omega
          simp only [if_neg h4]
          rw [List.take_append_of_le_length (by omega)]
          exact h
      · simp only [if_neg h2] at h ⊢
        by_cases h5 : x.val = 0xFE
        · simp only [if_pos h5] at h ⊢
          by_cases h3 : rest.length < 4
          · simp [if_pos h3] at h
          · simp only [if_neg h3] at h
            have h4 : ¬((rest ++ s).length < 4) := by simp [List.length_append]; omega
            simp only [if_neg h4]
            rw [List.take_append_of_le_length (by omega)]
            exact h
        · simp only [if_neg h5] at h ⊢
          by_cases h3 : rest.length < 8
          · simp [if_pos h3] at h
          · simp only [if_neg h3] at h
            have h4 : ¬((rest ++ s).length < 8) := by simp [List.length_append]; omega
            simp only [if_neg h4]
            rw [List.take_append_of_le_length (by omega)]
            exact h

theorem CompactSize.to_bytes_length_le (cs : CompactSize) :
    (CompactSize.to_bytes cs).length ≤ 9 := by
  unfold CompactSize.to_bytes
  repeat' split
  all_goals simp [toLE_length]

theorem CompactSize.compact_round_trip {v : Nat} (hv : v < 2 ^ 64) :
    CompactSize.from_bytes (CompactSize.to_bytes ⟨v⟩) =
      .ok ⟨v⟩ (CompactSize.to_bytes ⟨v⟩).length := by
  unfold CompactSize.to_bytes
  by_cases h1 : v ≤ 252
  · have hm : v % 256 = v := Nat.mod_eq_of_lt (by omega)
    simp [if_pos h1, toLE, CompactSize.from_bytes, hm, h1]
  · simp only [if_neg h1]
    have e1 : ((0xFD : Byte)).val = 253 := rfl
    have e2 : ((0xFE : Byte)).val = 254 := rfl
    have e3 : ((0xFF : Byte)).val = 255 := rfl
    by_cases h2 : v ≤ 65535
    · have hm : v % 256 ^ 2 = v := Nat.mod_eq_of_lt (by norm_num; omega)
      simp only [if_pos h2, CompactSize.from_bytes]
      norm_num [toLE_length, fromLE_toLE_full, hm, e1]
      omega
    · simp only [if_neg h2]
      by_cases h3 : v ≤ 4294967295
      · have hm : v % 256 ^ 4 = v := Nat.mod_eq_of_lt (by norm_num; omega)
        simp only [if_pos h3, CompactSize.from_bytes]
        norm_num [toLE_length, fromLE_toLE_full, hm, e2]
        omega
      · have hm : v % 256 ^ 8 = v := Nat.mod_eq_of_lt (by norm_num; omega)
        simp only [if_neg h3, CompactSize.from_bytes]
        norm_num [toLE_length, fromLE_toLE_full, hm, e3]
        omega

theorem OutPoint.outpoint_consumed_le {b : List Byte} {v : OutPoint} {n : Nat}
    (h : OutPoint.from_bytes b = .ok v n) : n ≤ b.length := by
  unfold OutPoint.from_bytes at h
  split at h
  · simp at h
  · simp only [DecodeOutcome.ok.injEq] at h
    omega

theorem OutPoint.outpoint_from_bytes_append {b s : List Byte} {v : OutPoint} {n : Nat}
    (h : OutPoint.from_bytes b = .ok v n) :
    OutPoint.from_bytes (b ++ s) = .ok v n := by
  unfold OutPoint.from_bytes at h ⊢
  by_cases h1 : b.length < 36
  · simp [if_pos h1] at h
  · simp only [if_neg h1] at h
    have h2 : ¬((b ++ s).length < 36) := by simp [List.length_append]; omega
    simp only [if_neg h2]
    rw [List.take_append_of_le_length (by omega),
        List.drop_append_of_le_length (by omega),
        List.take_append_of_le_length (by simp [List.length_drop]; omega)]
    exact h

theorem OutPoint.outpoint_round_trip {p : OutPoint} (h32 : p.txid.length = 32)
    (hv : p.vout < 2 ^ 32) :
    OutPoint.from_bytes (OutPoint.to_bytes p) = .ok p 36 := by
  unfold OutPoint.to_bytes OutPoint.from_bytes
  have hlen : (p.txid ++ toLE 4 p.vout).length = 36 := by
    simp [List.length_append, toLE_length, h32]
  rw [if_neg (by omega)]
  have ht : (p.txid ++ toLE 4 p.vout).take 32 = p.txid := by
    rw [List.take_append_of_le_length (by omega),
        List.take_of_length_le (by omega)]
  have hd : (p.txid ++ toLE 4 p.vout).drop 32 = toLE 4 p.vout := by
    rw [List.drop_append_of_le_length (by omega), List.drop_of_length_le (by omega),
        List.nil_append]
  rw [ht, hd, fromLE_toLE_full]
  have : p.vout % 256 ^ 4 = p.vout := Nat.mod_eq_of_lt (by norm_num; omega)
  rw [this]

theorem Script.script_consumed_le {b : List Byte} {v : Script} {n : Nat}
    (h : Script.from_bytes b = .ok v n) : n ≤ b.length := by
  unfold Script.from_bytes at h
  cases hcs : CompactSize.from_bytes b with
  | err e => rw [hcs] at h; simp at h
  | abort => rw [hcs] at h; simp at h
  | ok len w =>
    rw [hcs] at h
    simp only at h
    by_cases h1 : 2 ^ 64 ≤ w + len.value
    · rw [if_pos h1] at h; simp at h
    · rw [if_neg h1] at h
      by_cases h2 : b.length < w + len.value
      · rw [if_pos h2] at h; simp at h
      · rw [if_neg h2] at h
        simp only [DecodeOutcome.ok.injEq] at h
        omega

theorem Script.script_from_bytes_append {b s : List Byte} {v : Script} {n : Nat}
    (h : Script.from_bytes b = .ok v n) :
    Script.from_bytes (b ++ s) = .ok v n := by
  unfold Script.from_bytes at h
  cases hcs : CompactSize.from_bytes b with
  | err e => rw [hcs] at h; simp at h
  | abort => rw [hcs] at h; simp at h
  | ok len w =>
    rw [hcs] at h
    simp only at h
    have hw : w ≤ b.length := CompactSize.compact_consumed_le hcs
    by_cases h1 : 2 ^ 64 ≤ w + len.value
    · rw [if_pos h1] at h; simp at h
    · rw [if_neg h1] at h
      by_cases h2 : b.length < w + len.value
      · rw [if_pos h2] at h; simp at h
      · rw [if_neg h2] at h
        unfold Script.from_bytes
        rw [CompactSize.compact_from_bytes_append hcs]
        simp only
        rw [if_neg h1, if_neg (by simp only [List.length_append]; omega)]
        rw [List.drop_append_of_le_length hw,
            List.take_append_of_le_length (by simp only [List.length_drop]; omega)]
        exact h

theorem Script.script_round_trip {s : Script} (hlen : s.bytes.length < 2 ^ 63) :
    Script.from_bytes (Script.to_bytes s) = .ok s (Script.to_bytes s).length := by
  have hv : s.bytes.length < 2 ^ 64 := by omega
  have hcs := CompactSize.compact_round_trip hv
  have hW := CompactSize.to_bytes_length_le (CompactSize.mk s.bytes.length)
  unfold Script.to_bytes Script.from_bytes
  rw [CompactSize.compact_from_bytes_append hcs]
  simp only
  rw [if_neg (by omega), if_neg (by simp only [List.length_append]; omega)]
  rw [List.drop_left, List.take_length]
  simp [List.length_append]

theorem TransactionInput.input_consumed_le {b : List Byte} {v : TransactionInput} {n : Nat}
    (h : TransactionInput.from_bytes b = .ok v n) : n ≤ b.length := by
  unfold TransactionInput.from_bytes at h
  cases hop : OutPoint.from_bytes b with
  | err e => rw [hop] at h; simp at h
  | abort => rw [hop] at h; simp at h
  | ok po c₁ =>
    rw [hop] at h
    simp only at h
    cases hsc : Script.from_bytes (b.drop c₁) with
    | err e => rw [hsc] at h; simp at h
    | abort => rw [hsc] at h; simp at h
    | ok ss c₂ =>
      rw [hsc] at h
      simp only at h
      by_cases hg : b.length < c₁ + c₂ + 4
      · rw [if_pos hg] at h; simp at h
      · rw [if_neg hg] at h
        simp only [DecodeOutcome.ok.injEq] at h
        omega

theorem TransactionInput.input_from_bytes_append {b s : List Byte} {v : TransactionInput} {n : Nat}
    (h : TransactionInput.from_bytes b = .ok v n) :
    TransactionInput.from_bytes (b ++ s) = .ok v n := by
  unfold TransactionInput.from_bytes at h
  cases hop : OutPoint.from_bytes b with
  | err e => rw [hop] at h; simp at h
  | abort => rw [hop] at h; simp at h
  | ok po c₁ =>
    rw [hop] at h
    simp only at h
    have hc₁ : c₁ ≤ b.length := OutPoint.outpoint_consumed_le hop
    cases hsc : Script.from_bytes (b.drop c₁) with
    | err e => rw [hsc] at h; simp at h
    | abort => rw [hsc] at h; simp at h
    | ok ss c₂ =>
      rw [hsc] at h
      simp only at h
      have hc₂ : c₂ ≤ (b.drop c₁).length := Script.script_consumed_le hsc
      rw [List.length_drop] at hc₂
      by_cases hg : b.length < c₁ + c₂ + 4
      · rw [if_pos hg] at h; simp at h
      · rw [if_neg hg] at h
        unfold TransactionInput.from_bytes
        rw [OutPoint.outpoint_from_bytes_append hop]
        simp only
        rw [List.drop_append_of_le_length hc₁, Script.script_from_bytes_append hsc]
        simp only
        rw [if_neg (by simp only [List.length_append]; omega),
            List.drop_append_of_le_length (by omega),
            List.take_append_of_le_length (by simp only [List.length_drop]; omega)]
        exact h

theorem TransactionInput.input_round_trip {i : TransactionInput} (hv : i.valid) :
    TransactionInput.from_bytes i.to_bytes = .ok i i.to_bytes.length := by
  obtain ⟨⟨h32, hvout⟩, hscript, hseq⟩ := hv
  have hop := OutPoint.outpoint_round_trip h32 hvout
  have hsc := Script.script_round_trip hscript
  have ha : (OutPoint.to_bytes i.previous_output).length = 36 := by
    unfold OutPoint.to_bytes
    simp [List.length_append, toLE_length, h32]
  unfold TransactionInput.to_bytes TransactionInput.from_bytes
  rw [List.append_assoc, OutPoint.outpoint_from_bytes_append hop]
  simp only
  have hd36 : (OutPoint.to_bytes i.previous_output ++
      (Script.to_bytes i.script_sig ++ toLE 4 i.sequence)).drop 36 =
      Script.to_bytes i.script_sig ++ toLE 4 i.sequence := by
    rw [← ha, List.drop_left]
  rw [hd36, Script.script_from_bytes_append hsc]
  simp only
  have hdW : (OutPoint.to_bytes i.previous_output ++
      (Script.to_bytes i.script_sig ++ toLE 4 i.sequence)).drop
        (36 + (Script.to_bytes i.script_sig).length) = toLE 4 i.sequence := by
    rw [show 36 + (Script.to_bytes i.script_sig).length =
          (OutPoint.to_bytes i.previous_output ++ Script.to_bytes i.script_sig).length from by
            simp [List.length_append, ha],
        ← List.append_assoc, List.drop_left]
  rw [if_neg (by simp only [List.length_append, toLE_length]; omega), hdW,
      List.take_of_length_le (le_of_eq (toLE_length 4 i.sequence)), fromLE_toLE]
  have hm : i.sequence % 256 ^ 4 = i.sequence := Nat.mod_eq_of_lt (by norm_num; omega)
  rw [hm]
  simp only [List.length_append, toLE_length, ha, DecodeOutcome.ok.injEq]
  exact ⟨trivial, by omega⟩

theorem readInputs_consumed_le {m : Nat} {b : List Byte} {l : List TransactionInput} {n : Nat}
    (h : readInputs m b = .ok l n) : n ≤ b.length := by
  induction m generalizing b l n with
  | zero =>
    unfold readInputs at h
    simp only [DecodeOutcome.ok.injEq] at h
    omega
  | succ m ih =>
    unfold readInputs at h
    cases hi : TransactionInput.from_bytes b with
    | err e => rw [hi] at h; simp at h
    | abort => rw [hi] at h; simp at h
    | ok i c =>
      rw [hi] at h
      simp only at h
      cases hr : readInputs m (b.drop c) with
      | err e => rw [hr] at h; simp at h
      | abort => rw [hr] at h; simp at h
      | ok is c' =>
        rw [hr] at h
        simp only [DecodeOutcome.ok.injEq] at h
        have h1 : c ≤ b.length := TransactionInput.input_consumed_le hi
        have h2 : c' ≤ (b.drop c).length := ih hr
        rw [List.length_drop] at h2
        omega

theorem readInputs_append {m : Nat} {b s : List Byte} {l : List TransactionInput} {n : Nat}
    (h : readInputs m b = .ok l n) : readInputs m (b ++ s) = .ok l n := by
  induction m generalizing b l n with
  | zero => unfold readInputs at h ⊢; exact h
  | succ m ih =>
    unfold readInputs at h
    cases hi : TransactionInput.from_bytes b with
    | err e => rw [hi] at h; simp at h
    | abort => rw [hi] at h; simp at h
    | ok i c =>
      rw [hi] at h
      simp only at h
      cases hr : readInputs m (b.drop c) with
      | err e => rw [hr] at h; simp at h
      | abort => rw [hr] at h; simp at h
      | ok is c' =>
        rw [hr] at h
        have hc : c ≤ b.length := TransactionInput.input_consumed_le hi
        unfold readInputs
        rw [TransactionInput.input_from_bytes_append hi]
        simp only
        rw [List.drop_append_of_le_length hc, ih hr]
        exact h

theorem readInputs_encode {inputs : List TransactionInput}
    (hv : ∀ i ∈ inputs, i.valid) (rest : List Byte) :
    readInputs inputs.length ((inputs.map TransactionInput.to_bytes).flatten ++ rest) =
      .ok inputs ((inputs.map TransactionInput.to_bytes).flatten).length := by
  induction inputs generalizing rest with
  | nil => simp [readInputs]
  | cons i is ih =>
    have hi := TransactionInput.input_round_trip (hv i (by simp))
    simp only [List.map_cons, List.flatten_cons, List.length_cons]
    unfold readInputs
    rw [List.append_assoc, TransactionInput.input_from_bytes_append hi]
    simp only
    rw [List.drop_left, ih (fun j hj => hv j (by simp [hj]))]
    simp [List.length_append]

theorem BitcoinTransaction.tx_from_bytes_append {b s : List Byte} {v : BitcoinTransaction} {n : Nat}
    (h : BitcoinTransaction.from_bytes b = .ok v n) :
    BitcoinTransaction.from_bytes (b ++ s) = .ok v n := by
  unfold BitcoinTransaction.from_bytes at h
  by_cases h4 : b.length < 4
  · rw [if_pos h4] at h; simp at h
  · rw [if_neg h4] at h
    cases hcs : CompactSize.from_bytes (b.drop 4) with
    | err e => rw [hcs] at h; simp at h
    | abort => rw [hcs] at h; simp at h
    | ok cnt c =>
      rw [hcs] at h
      simp only at h
      have hc : c ≤ (b.drop 4).length := CompactSize.compact_consumed_le hcs
      rw [List.length_drop] at hc
      by_cases hcap : 2 ^ 63 - 1 < cnt.value * 64
      · rw [if_pos hcap] at h; simp at h
      · rw [if_neg hcap] at h
        cases hri : readInputs cnt.value (b.drop (4 + c)) with
        | err e => rw [hri] at h; simp at h
        | abort => rw [hri] at h; simp at h
        | ok inputs c' =>
          rw [hri] at h
          simp only at h
          have hc' : c' ≤ (b.drop (4 + c)).length := readInputs_consumed_le hri
          rw [List.length_drop] at hc'
          by_cases hg : b.length < 4 + c + c' + 4
          · rw [if_pos hg] at h; simp at h
          · rw [if_neg hg] at h
            unfold BitcoinTransaction.from_bytes
            rw [if_neg (by simp only [List.length_append]; omega)]
            rw [List.drop_append_of_le_length (by omega),
                CompactSize.compact_from_bytes_append hcs]
            simp only
            rw [if_neg hcap]
            rw [List.drop_append_of_le_length (by omega), readInputs_append hri]
            simp only
            rw [if_neg (by simp only [List.length_append]; omega),
                List.take_append_of_le_length (by omega),
                List.drop_append_of_le_length (by omega),
                List.take_append_of_le_length (by simp only [List.length_drop]; omega)]
            exact h

theorem BitcoinTransaction.tx_round_trip {tx : BitcoinTransaction} (hv : tx.valid) :
    BitcoinTransaction.from_bytes tx.to_bytes = .ok tx tx.to_bytes.length := by
  obtain ⟨hver, hlock, hcount, hinputs⟩ := hv
  have hcs := CompactSize.compact_round_trip (v := tx.inputs.length) (by omega)
  have hW := CompactSize.to_bytes_length_le (CompactSize.mk tx.inputs.length)
  unfold BitcoinTransaction.to_bytes BitcoinTransaction.from_bytes
  rw [List.append_assoc, List.append_assoc]
  have hva : (toLE 4 tx.version).length = 4 := toLE_length 4 tx.version
  have htake4 : ((toLE 4 tx.version) ++ ((CompactSize.mk tx.inputs.length).to_bytes ++
      ((tx.inputs.map TransactionInput.to_bytes).flatten ++ toLE 4 tx.lock_time))).take 4 =
      toLE 4 tx.version := by
    rw [List.take_append_of_le_length (by omega), List.take_of_length_le (by omega)]
  have hdrop4 : ((toLE 4 tx.version) ++ ((CompactSize.mk tx.inputs.length).to_bytes ++
      ((tx.inputs.map TransactionInput.to_bytes).flatten ++ toLE 4 tx.lock_time))).drop 4 =
      (CompactSize.mk tx.inputs.length).to_bytes ++
        ((tx.inputs.map TransactionInput.to_bytes).flatten ++ toLE 4 tx.lock_time) := by
    rw [List.drop_append_of_le_length (by omega),
        List.drop_of_length_le (by omega), List.nil_append]
  rw [if_neg (by simp only [List.length_append]; omega), hdrop4,
      CompactSize.compact_from_bytes_append hcs]
  simp only
  rw [if_neg (by omega)]
  have hdropW : ((toLE 4 tx.version) ++ ((CompactSize.mk tx.inputs.length).to_bytes ++
      ((tx.inputs.map TransactionInput.to_bytes).flatten ++ toLE 4 tx.lock_time))).drop
        (4 + ((CompactSize.mk tx.inputs.length).to_bytes).length) =
      (tx.inputs.map TransactionInput.to_bytes).flatten ++ toLE 4 tx.lock_time := by
    rw [show 4 + ((CompactSize.mk tx.inputs.length).to_bytes).length =
          ((toLE 4 tx.version) ++ (CompactSize.mk tx.inputs.length).to_bytes).length from by
            simp only [List.length_append, hva],
        ← List.append_assoc, List.drop_left]
  rw [hdropW, readInputs_encode hinputs]
  simp only
  have hdropF : ((toLE 4 tx.version) ++ ((CompactSize.mk tx.inputs.length).to_bytes ++
      ((tx.inputs.map TransactionInput.to_bytes).flatten ++ toLE 4 tx.lock_time))).drop
        (4 + ((CompactSize.mk tx.inputs.length).to_bytes).length +
          ((tx.inputs.map TransactionInput.to_bytes).flatten).length) =
      toLE 4 tx.lock_time := by
    rw [show 4 + ((CompactSize.mk tx.inputs.length).to_bytes).length +
          ((tx.inputs.map TransactionInput.to_bytes).flatten).length =
          (((toLE 4 tx.version) ++ (CompactSize.mk tx.inputs.length).to_bytes) ++
            (tx.inputs.map TransactionInput.to_bytes).flatten).length from by
            simp only [List.length_append, hva, Nat.add_assoc],
        ← List.append_assoc, ← List.append_assoc, List.drop_left]
  rw [if_neg (by simp only [List.length_append, toLE_length]; omega), hdropF,
      List.take_of_length_le (le_of_eq (toLE_length 4 tx.lock_time)), fromLE_toLE,
      htake4, fromLE_toLE]
  have hm1 : tx.version % 256 ^ 4 = tx.version := Nat.mod_eq_of_lt (by norm_num; omega)
  have hm2 : tx.lock_time % 256 ^ 4 = tx.lock_time := Nat.mod_eq_of_lt (by norm_num; omega)
  rw [hm1, hm2]
  simp only [List.length_append, hva, toLE_length, DecodeOutcome.ok.injEq]
  exact ⟨trivial, by omega⟩

theorem OutPoint.to_bytes_length {p : OutPoint} (h32 : p.txid.length = 32) :
    (OutPoint.to_bytes p).length = 36 := by
  unfold OutPoint.to_bytes
  simp [List.length_append, toLE_length, h32]

theorem CompactSize.compact_err_eq {b : List Byte} {e : BitcoinError}
    (h : CompactSize.from_bytes b = .err e) : e = .insufficientBytes := by
  cases b with
  | nil =>
    simp only [CompactSize.from_bytes, DecodeOutcome.err.injEq] at h
    exact h.symm
  | cons x rest =>
    simp only [CompactSize.from_bytes] at h
    repeat' split at h
    all_goals simp_all

theorem OutPoint.outpoint_err_eq {b : List Byte} {e : BitcoinError}
    (h : OutPoint.from_bytes b = .err e) : e = .insufficientBytes := by
  unfold OutPoint.from_bytes at h
  split at h
  all_goals simp_all

theorem Script.script_err_eq {b : List Byte} {e : BitcoinError}
    (h : Script.from_bytes b = .err e) : e = .insufficientBytes := by
  unfold Script.from_bytes at h
  cases hcs : CompactSize.from_bytes b with
  | err e' =>
    rw [hcs] at h
    simp only [DecodeOutcome.err.injEq] at h
    exact h ▸ CompactSize.compact_err_eq hcs
  | abort => rw [hcs] at h; simp at h
  | ok len w =>
    rw [hcs] at h
    simp only at h
    repeat' split at h
    all_goals simp_all

theorem TransactionInput.input_err_eq {b : List Byte} {e : BitcoinError}
    (h : TransactionInput.from_bytes b = .err e) : e = .insufficientBytes := by
  unfold TransactionInput.from_bytes at h
  cases hop : OutPoint.from_bytes b with
  | err e' =>
    rw [hop] at h
    simp only [DecodeOutcome.err.injEq] at h
    exact h ▸ OutPoint.outpoint_err_eq hop
  | abort => rw [hop] at h; simp at h
  | ok po c₁ =>
    rw [hop] at h
    simp only at h
    cases hsc : Script.from_bytes (b.drop c₁) with
    | err e' =>
      rw [hsc] at h
      simp only [DecodeOutcome.err.injEq] at h
      exact h ▸ Script.script_err_eq hsc
    | abort => rw [hsc] at h; simp at h
    | ok ss c₂ =>
      rw [hsc] at h
      simp only at h
      split at h
      all_goals simp_all

theorem readInputs_err_eq {m : Nat} {b : List Byte} {e : BitcoinError}
    (h : readInputs m b = .err e) : e = .insufficientBytes := by
  induction m generalizing b e with
  | zero => simp [readInputs] at h
  | succ m ih =>
    unfold readInputs at h
    cases hi : TransactionInput.from_bytes b with
    | err e' =>
      rw [hi] at h
      simp only [DecodeOutcome.err.injEq] at h
      exact h ▸ TransactionInput.input_err_eq hi
    | abort => rw [hi] at h; simp at h
    | ok i c =>
      rw [hi] at h
      simp only at h
      cases hr : readInputs m (b.drop c) with
      | err e' =>
        rw [hr] at h
        simp only [DecodeOutcome.err.injEq] at h
        exact h ▸ ih hr
      | abort => rw [hr] at h; simp at h
      | ok is c' => rw [hr] at h; simp at h

theorem BitcoinTransaction.tx_err_eq {b : List Byte} {e : BitcoinError}
    (h : BitcoinTransaction.from_bytes b = .err e) : e = .insufficientBytes := by
  unfold BitcoinTransaction.from_bytes at h
  split at h
  · simp_all
  · cases hcs : CompactSize.from_bytes (b.drop 4) with
    | err e' =>
      rw [hcs] at h
      simp only [DecodeOutcome.err.injEq] at h
      exact h ▸ CompactSize.compact_err_eq hcs
    | abort => rw [hcs] at h; simp at h
    | ok cnt c =>
      rw [hcs] at h
      simp only at h
      by_cases hcap : 2 ^ 63 - 1 < cnt.value * 64
      · rw [if_pos hcap] at h; simp at h
      · rw [if_neg hcap] at h
        cases hri : readInputs cnt.value (b.drop (4 + c)) with
        | err e' =>
          rw [hri] at h
          simp only [DecodeOutcome.err.injEq] at h
          exact h ▸ readInputs_err_eq hri
        | abort => rw [hri] at h; simp at h
        | ok inputs c' =>
          rw [hri] at h
          simp only at h
          split at h
          all_goals simp_all

theorem Script.err_propagate {b : List Byte} {e : BitcoinError}
    (h : CompactSize.from_bytes b = .err e) : Script.from_bytes b = .err e := by
  unfold Script.from_bytes
  rw [h]

theorem TransactionInput.err_propagate_outpoint {b : List Byte} {e : BitcoinError}
    (h : OutPoint.from_bytes b = .err e) : TransactionInput.from_bytes b = .err e := by
  unfold TransactionInput.from_bytes
  rw [h]

theorem TransactionInput.err_propagate_script {b : List Byte} {po : OutPoint}
    {c₁ : Nat} {e : BitcoinError} (hop : OutPoint.from_bytes b = .ok po c₁)
    (hsc : Script.from_bytes (b.drop c₁) = .err e) :
    TransactionInput.from_bytes b = .err e := by
  unfold TransactionInput.from_bytes
  rw [hop]
  simp only
  rw [hsc]

theorem BitcoinTransaction.err_propagate_count {b : List Byte} {e : BitcoinError}
    (h4 : ¬ b.length < 4) (hcs : CompactSize.from_bytes (b.drop 4) = .err e) :
    BitcoinTransaction.from_bytes b = .err e := by
  unfold BitcoinTransaction.from_bytes
  rw [if_neg h4, hcs]

/-- A sample OutPoint used to instantiate universally quantified results. -/
def sampleOutPoint : OutPoint := ⟨List.replicate 32 (0xAB : Byte), 7⟩

/-- A sample Script used to instantiate universally quantified results. -/
def sampleScript : Script := ⟨[0x76, 0xA9, 0x14]⟩

/-- A sample TransactionInput used to instantiate universally quantified
results. -/
def sampleInput : TransactionInput := ⟨sampleOutPoint, sampleScript, 4294967295⟩

/-- The spec's empty-script transaction: version 1, one input with an
empty script and sequence `0xFFFFFFFF`, lock time 0; its encoding is 50
bytes. -/
def sampleTx : BitcoinTransaction :=
  ⟨1, [⟨⟨List.replicate 32 (0 : Byte), 0⟩, ⟨[]⟩, 4294967295⟩], 0⟩

/-- C1: for every valid entity of each codec type (CompactSize,
OutPoint, Script, TransactionInput, BitcoinTransaction), decoding its
encoding succeeds and returns the original entity together with a
consumed count equal to the encoding's length. -/
theorem c1_decode_encode_round_trip :
    (∀ v : Nat, v < 2 ^ 64 →
      CompactSize.from_bytes (CompactSize.to_bytes ⟨v⟩) =
        .ok ⟨v⟩ (CompactSize.to_bytes ⟨v⟩).length) ∧
    (∀ p : OutPoint, p.txid.length = 32 → p.vout < 2 ^ 32 →
      OutPoint.from_bytes (OutPoint.to_bytes p) = .ok p (OutPoint.to_bytes p).length) ∧
    (∀ s : Script, s.bytes.length < 2 ^ 63 →
      Script.from_bytes (Script.to_bytes s) = .ok s (Script.to_bytes s).length) ∧
    (∀ i : TransactionInput, i.valid →
      TransactionInput.from_bytes (TransactionInput.to_bytes i) =
        .ok i (TransactionInput.to_bytes i).length) ∧
    (∀ tx : BitcoinTransaction, tx.valid →
      BitcoinTransaction.from_bytes (BitcoinTransaction.to_bytes tx) =
        .ok tx (BitcoinTransaction.to_bytes tx).length) := by
  refine ⟨fun v hv => CompactSize.compact_round_trip hv,
          fun p h32 hv => ?_,
          fun s hs => Script.script_round_trip hs,
          fun i hv => TransactionInput.input_round_trip hv,
          fun tx hv => BitcoinTransaction.tx_round_trip hv⟩
  rw [OutPoint.outpoint_round_trip h32 hv, OutPoint.to_bytes_length h32]

/-- C1 witness: concrete round trips, one per codec type; the
transaction is the spec's 50-byte empty-script example. -/
theorem c1_decode_encode_round_trip_witness :
    CompactSize.from_bytes (CompactSize.to_bytes ⟨300⟩) = .ok ⟨300⟩ 3 ∧
    OutPoint.from_bytes (OutPoint.to_bytes sampleOutPoint) = .ok sampleOutPoint 36 ∧
    Script.from_bytes (Script.to_bytes sampleScript) = .ok sampleScript 4 ∧
    TransactionInput.from_bytes (TransactionInput.to_bytes sampleInput) =
      .ok sampleInput 44 ∧
    BitcoinTransaction.from_bytes (BitcoinTransaction.to_bytes sampleTx) =
      .ok sampleTx 50 :=
  ⟨c1_decode_encode_round_trip.1 300 (by norm_num),
   c1_decode_encode_round_trip.2.1 sampleOutPoint (by decide) (by decide),
   c1_decode_encode_round_trip.2.2.1 sampleScript (by decide),
   c1_decode_encode_round_trip.2.2.2.1 sampleInput (by decide),
   c1_decode_encode_round_trip.2.2.2.2 sampleTx (by decide)⟩

/-- C7: appending arbitrary extra bytes after a valid encoded
transaction still decodes successfully, returning the same transaction
and a consumed count equal to the length of the valid encoded prefix,
not the full buffer length. -/
theorem c7_trailing_bytes_tolerance :
    ∀ tx : BitcoinTransaction, tx.valid → ∀ extra : List Byte,
      BitcoinTransaction.from_bytes (BitcoinTransaction.to_bytes tx ++ extra) =
        .ok tx (BitcoinTransaction.to_bytes tx).length :=
  fun _ hv _ => BitcoinTransaction.tx_from_bytes_append (BitcoinTransaction.tx_round_trip hv)

/-- C7 witness: the 50-byte sample transaction with three junk bytes
appended still decodes to itself with consumed 50. -/
theorem c7_trailing_bytes_tolerance_witness :
    BitcoinTransaction.from_bytes
        (BitcoinTransaction.to_bytes sampleTx ++ [0xDE, 0xAD, 0x99]) =
      .ok sampleTx 50 :=
  c7_trailing_bytes_tolerance sampleTx (by decide) [0xDE, 0xAD, 0x99]

/-- C9: every decoder is prefix-stable: a successful decode of a buffer
is unchanged by appending any suffix, for each of the five from_bytes
functions. -/
theorem c9_prefix_stability :
    (∀ (b s : List Byte) (v : CompactSize) (n : Nat),
      CompactSize.from_bytes b = .ok v n → CompactSize.from_bytes (b ++ s) = .ok v n) ∧
    (∀ (b s : List Byte) (v : OutPoint) (n : Nat),
      OutPoint.from_bytes b = .ok v n → OutPoint.from_bytes (b ++ s) = .ok v n) ∧
    (∀ (b s : List Byte) (v : Script) (n : Nat),
      Script.from_bytes b = .ok v n → Script.from_bytes (b ++ s) = .ok v n) ∧
    (∀ (b s : List Byte) (v : TransactionInput) (n : Nat),
      TransactionInput.from_bytes b = .ok v n →
        TransactionInput.from_bytes (b ++ s) = .ok v n) ∧
    (∀ (b s : List Byte) (v : BitcoinTransaction) (n : Nat),
      BitcoinTransaction.from_bytes b = .ok v n →
        BitcoinTransaction.from_bytes (b ++ s) = .ok v n) :=
  ⟨fun _ _ _ _ h => CompactSize.compact_from_bytes_append h,
   fun _ _ _ _ h => OutPoint.outpoint_from_bytes_append h,
   fun _ _ _ _ h => Script.script_from_bytes_append h,
   fun _ _ _ _ h => TransactionInput.input_from_bytes_append h,
   fun _ _ _ _ h => BitcoinTransaction.tx_from_bytes_append h⟩

/-- C9 witness: a one-byte CompactSize decode survives a junk suffix. -/
theorem c9_prefix_stability_witness :
    CompactSize.from_bytes ([5] ++ [7, 9]) = .ok ⟨5⟩ 1 :=
  c9_prefix_stability.1 [5] [7, 9] ⟨5⟩ 1 (by decide)

/-- C6: on the 9-byte buffer of `0xFF` bytes the length prefix decodes
to `2 ^ 64 - 1` with 9 bytes consumed, the remaining buffer is empty
(shorter than the announced length), yet Script.from_bytes panics
(models a Rust panic: add-overflow in debug, invalid slice range in
release) instead of failing with InsufficientBytes. -/
theorem c6_script_decode_panics_on_huge_length :
    CompactSize.from_bytes (List.replicate 9 (0xFF : Byte)) =
      .ok ⟨18446744073709551615⟩ 9 ∧
    Script.from_bytes (List.replicate 9 (0xFF : Byte)) = .abort :=
  ⟨by decide, by decide⟩

/-- C10: Script.from_bytes is not total: when the decoded length L
makes `consumed + L` reach `2 ^ 64` (here L = `2 ^ 64 - 9`, so the
`usize` sum is exactly `2 ^ 64`), the code panics on the bounds
arithmetic/slice instead of returning Ok or Err(InsufficientBytes). -/
theorem c10_script_bounds_overflow_panics :
    Script.from_bytes ((0xFF : Byte) :: (0xF7 : Byte) :: List.replicate 7 (0xFF : Byte)) =
      .abort := by decide

/-- C2: CompactSize.to_bytes selects the narrowest width class for
every u64 value: 1 byte equal to the value for values up to 252; 3
bytes `0xFD` plus 2 LE bytes for 253..65535; 5 bytes `0xFE` plus 4 LE
bytes up to 4294967295; 9 bytes `0xFF` plus 8 LE bytes above that. -/
theorem c2_width_selection : ∀ v : Nat, v < 2 ^ 64 →
    (v ≤ 252 → (CompactSize.to_bytes ⟨v⟩).map Fin.val = [v]) ∧
    (253 ≤ v → v ≤ 65535 →
      (CompactSize.to_bytes ⟨v⟩).map Fin.val = [0xFD, v % 256, v / 256]) ∧
    (65536 ≤ v → v ≤ 4294967295 →
      (CompactSize.to_bytes ⟨v⟩).map Fin.val =
        [0xFE, v % 256, v / 256 % 256, v / 65536 % 256, v / 16777216]) ∧
    (4294967295 < v →
      (CompactSize.to_bytes ⟨v⟩).map Fin.val =
        [0xFF, v % 256, v / 256 % 256, v / 65536 % 256, v / 16777216 % 256,
         v / 4294967296 % 256, v / 1099511627776 % 256, v / 281474976710656 % 256,
         v / 72057594037927936]) := by
  intro v hv
  refine ⟨fun h1 => ?_, fun h1 h2 => ?_, fun h1 h2 => ?_, fun h1 => ?_⟩
  · simp only [CompactSize.to_bytes, if_pos h1, toLE, List.map_cons, List.map_nil]
    rw [Nat.mod_eq_of_lt (by omega)]
  · have h0 : ¬ v ≤ 252 := by omega
    simp only [CompactSize.to_bytes, if_neg h0, if_pos h2, toLE,
      List.map_cons, List.map_nil, List.cons.injEq, and_true]
    repeat' apply And.intro
    all_goals first | trivial | rfl | omega
  · have h0 : ¬ v ≤ 252 := by omega
    have h0' : ¬ v ≤ 65535 := by omega
    simp only [CompactSize.to_bytes, if_neg h0, if_neg h0', if_pos h2, toLE,
      List.map_cons, List.map_nil, List.cons.injEq, and_true,
      Nat.div_div_eq_div_mul]
    norm_num
    omega
  · have h0 : ¬ v ≤ 252 := by omega
    have h0' : ¬ v ≤ 65535 := by omega
    have h0'' : ¬ v ≤ 4294967295 := by omega
    simp only [CompactSize.to_bytes, if_neg h0, if_neg h0', if_neg h0'', toLE,
      List.map_cons, List.map_nil, List.cons.injEq, and_true,
      Nat.div_div_eq_div_mul]
    norm_num
    omega

/-- C2 witness: width selection at the boundary values 252, 253, 65536
and 4294967296. -/
theorem c2_width_selection_witness :
    (CompactSize.to_bytes ⟨252⟩).map Fin.val = [252] ∧
    (CompactSize.to_bytes ⟨253⟩).map Fin.val = [0xFD, 253, 0] ∧
    (CompactSize.to_bytes ⟨65536⟩).map Fin.val = [0xFE, 0, 0, 1, 0] ∧
    (CompactSize.to_bytes ⟨4294967296⟩).map Fin.val =
      [0xFF, 0, 0, 0, 0, 1, 0, 0, 0] :=
  ⟨(c2_width_selection 252 (by norm_num)).1 (by norm_num),
   (c2_width_selection 253 (by norm_num)).2.1 (by norm_num) (by norm_num),
   (c2_width_selection 65536 (by norm_num)).2.2.1 (by norm_num) (by norm_num),
   (c2_width_selection 4294967296 (by norm_num)).2.2.2 (by norm_num)⟩

/-- C3: for every buffer long enough for its prefix class,
CompactSize.from_bytes returns exactly the value and consumed count
dictated by the first byte: a byte up to 252 is itself the value with
consumed 1; `0xFD` reads the next two bytes little-endian with consumed
3; `0xFE` four bytes with consumed 5; `0xFF` eight bytes with consumed
9; and it never rejects a non-canonical encoding — decoding
`[0xFD, 0x01, 0x00]` yields value 1 with consumed 3. -/
theorem c3_prefix_class_decoding : ∀ rest : List Byte,
    (∀ b : Byte, b.val ≤ 252 →
      CompactSize.from_bytes (b :: rest) = .ok ⟨b.val⟩ 1) ∧
    (∀ b₁ b₂ : Byte,
      CompactSize.from_bytes ((0xFD : Byte) :: b₁ :: b₂ :: rest) =
        .ok ⟨b₁.val + 256 * b₂.val⟩ 3) ∧
    (∀ b₁ b₂ b₃ b₄ : Byte,
      CompactSize.from_bytes ((0xFE : Byte) :: b₁ :: b₂ :: b₃ :: b₄ :: rest) =
        .ok ⟨b₁.val + 256 * (b₂.val + 256 * (b₃.val + 256 * b₄.val))⟩ 5) ∧
    (∀ b₁ b₂ b₃ b₄ b₅ b₆ b₇ b₈ : Byte,
      CompactSize.from_bytes
          ((0xFF : Byte) :: b₁ :: b₂ :: b₃ :: b₄ :: b₅ :: b₆ :: b₇ :: b₈ :: rest) =
        .ok ⟨b₁.val + 256 * (b₂.val + 256 * (b₃.val + 256 * (b₄.val + 256 *
          (b₅.val + 256 * (b₆.val + 256 * (b₇.val + 256 * b₈.val))))))⟩ 9) ∧
    CompactSize.from_bytes [(0xFD : Byte), 1, 0] = .ok ⟨1⟩ 3 := by
  intro rest
  have e1 : ((0xFD : Byte)).val = 253 := rfl
  have e2 : ((0xFE : Byte)).val = 254 := rfl
  have e3 : ((0xFF : Byte)).val = 255 := rfl
  refine ⟨fun b hb => ?_, fun b₁ b₂ => ?_, fun b₁ b₂ b₃ b₄ => ?_,
          fun b₁ b₂ b₃ b₄ b₅ b₆ b₇ b₈ => ?_, by decide⟩
  · simp [CompactSize.from_bytes, hb]
  · simp [CompactSize.from_bytes, e1, fromLE]
  · simp [CompactSize.from_bytes, e2, fromLE]
  · simp [CompactSize.from_bytes, e3, fromLE]

/-- C3 witness: the one-byte class applied to byte 7 with a nonempty
rest, and the 0xFD class applied to bytes 1, 2. -/
theorem c3_prefix_class_decoding_witness :
    CompactSize.from_bytes [7, 42] = .ok ⟨7⟩ 1 ∧
    CompactSize.from_bytes [(0xFD : Byte), 1, 2, 42] = .ok ⟨513⟩ 3 :=
  ⟨(c3_prefix_class_decoding [42]).1 7 (by decide),
   by have h := (c3_prefix_class_decoding [42]).2.1 1 2; simpa using h⟩

/-- C4: CompactSize.from_bytes fails with InsufficientBytes exactly
when the buffer is too short for the class announced by its first byte
(empty; `0xFD` with length below 3; `0xFE` below 5; `0xFF` below 9),
and in particular decoding `[0xFE, 0x01, 0x02]` fails with
InsufficientBytes. -/
theorem c4_truncation_detection :
    (∀ bytes : List Byte,
      CompactSize.from_bytes bytes = .err .insufficientBytes ↔
        (bytes = [] ∨
         (bytes.head? = some (0xFD : Byte) ∧ bytes.length < 3) ∨
         (bytes.head? = some (0xFE : Byte) ∧ bytes.length < 5) ∨
         (bytes.head? = some (0xFF : Byte) ∧ bytes.length < 9))) ∧
    CompactSize.from_bytes [(0xFE : Byte), 1, 2] = .err .insufficientBytes := by
  refine ⟨fun bytes => ?_, by decide⟩
  cases bytes with
  | nil => simp [CompactSize.from_bytes]
  | cons b rest =>
    have hb := b.isLt
    simp only [CompactSize.from_bytes, List.head?_cons, Option.some.injEq,
      List.length_cons, Fin.ext_iff]
    by_cases h1 : b.val ≤ 252
    · rw [if_pos h1]
      simp
      omega
    · rw [if_neg h1]
      by_cases h2 : b.val = 0xFD
      · rw [if_pos h2]
        by_cases h3 : rest.length < 2
        · rw [if_pos h3]
          simp
          omega
        · rw [if_neg h3]
          simp
          omega
      · rw [if_neg h2]
        by_cases h4 : b.val = 0xFE
        · rw [if_pos h4]
          by_cases h3 : rest.length < 4
          · rw [if_pos h3]
            simp
            omega
          · rw [if_neg h3]
            simp
            omega
        · rw [if_neg h4]
          by_cases h3 : rest.length < 8
          · rw [if_pos h3]
            simp
            omega
          · rw [if_neg h3]
            simp
            omega

/-- C5: OutPoint.to_bytes always produces exactly 36 bytes — the 32
identifier bytes followed by the 4-byte little-endian index — with no
failure path, and OutPoint.from_bytes fails with InsufficientBytes
exactly when the buffer length is below 36, otherwise succeeds with
consumed 36 and accepts any 32-byte identifier pattern without further
validation. -/
theorem c5_outpoint_codec :
    (∀ p : OutPoint, p.txid.length = 32 →
      (OutPoint.to_bytes p).length = 36 ∧
      (OutPoint.to_bytes p).take 32 = p.txid ∧
      (OutPoint.to_bytes p).drop 32 = toLE 4 p.vout) ∧
    (∀ bytes : List Byte, bytes.length < 36 →
      OutPoint.from_bytes bytes = .err .insufficientBytes) ∧
    (∀ bytes : List Byte, 36 ≤ bytes.length →
      OutPoint.from_bytes bytes =
        .ok ⟨bytes.take 32, fromLE ((bytes.drop 32).take 4)⟩ 36) := by
  refine ⟨fun p h32 => ⟨OutPoint.to_bytes_length h32, ?_, ?_⟩,
          fun bytes h => ?_, fun bytes h => ?_⟩
  · unfold OutPoint.to_bytes
    rw [List.take_append_of_le_length (by omega), List.take_of_length_le (by omega)]
  · unfold OutPoint.to_bytes
    rw [List.drop_append_of_le_length (by omega), List.drop_of_length_le (by omega),
        List.nil_append]
  · unfold OutPoint.from_bytes
    rw [if_pos h]
  · unfold OutPoint.from_bytes
    rw [if_neg (by omega)]

/-- C5 witness: the sample OutPoint encodes to 36 bytes whose halves
are the txid and index, a 35-byte buffer is rejected, and an arbitrary
36-byte buffer is accepted as-is. -/
theorem c5_outpoint_codec_witness :
    (OutPoint.to_bytes sampleOutPoint).length = 36 ∧
    OutPoint.from_bytes (List.replicate 35 (0 : Byte)) = .err .insufficientBytes ∧
    OutPoint.from_bytes (List.replicate 36 (9 : Byte)) =
      .ok ⟨List.replicate 32 (9 : Byte), 151587081⟩ 36 :=
  ⟨(c5_outpoint_codec.1 sampleOutPoint (by decide)).1,
   c5_outpoint_codec.2.1 (List.replicate 35 (0 : Byte)) (by decide),
   by
     have h := c5_outpoint_codec.2.2 (List.replicate 36 (9 : Byte)) (by decide)
     simpa using h⟩

/-- C8 counterexample: the claim "every decoder returns either Ok or
Err(InsufficientBytes) on every input buffer" is false twice over.  On
the 45-byte buffer of 36 zero bytes (a valid OutPoint) followed by nine
`0xFF` bytes, TransactionInput.from_bytes neither succeeds nor returns
an error — it panics (the Script length-overflow panic).  On the
13-byte buffer of a 4-byte version followed by nine `0xFF` bytes, the
input count decodes to `2 ^ 64 - 1` and BitcoinTransaction.from_bytes
panics at `Vec::with_capacity` (capacity overflow) before decoding any
input. -/
theorem c8_counterexample_panic_outcome :
    (¬ ((∃ (v : TransactionInput) (n : Nat),
          TransactionInput.from_bytes
              (List.replicate 36 (0 : Byte) ++ List.replicate 9 (0xFF : Byte)) =
            .ok v n) ∨
       TransactionInput.from_bytes
           (List.replicate 36 (0 : Byte) ++ List.replicate 9 (0xFF : Byte)) =
         .err .insufficientBytes)) ∧
    (¬ ((∃ (v : BitcoinTransaction) (n : Nat),
          BitcoinTransaction.from_bytes
              (List.replicate 4 (0 : Byte) ++ List.replicate 9 (0xFF : Byte)) =
            .ok v n) ∨
       BitcoinTransaction.from_bytes
           (List.replicate 4 (0 : Byte) ++ List.replicate 9 (0xFF : Byte)) =
         .err .insufficientBytes)) := by
  have habort₁ : TransactionInput.from_bytes
      (List.replicate 36 (0 : Byte) ++ List.replicate 9 (0xFF : Byte)) = .abort := by
    decide
  have habort₂ : BitcoinTransaction.from_bytes
      (List.replicate 4 (0 : Byte) ++ List.replicate 9 (0xFF : Byte)) = .abort := by
    decide
  constructor
  · rintro (⟨v, n, hv⟩ | he)
    · rw [habort₁] at hv
      cases hv
    · rw [habort₁] at he
      cases he
  · rintro (⟨v, n, hv⟩ | he)
    · rw [habort₂] at hv
      cases hv
    · rw [habort₂] at he
      cases he

/-- C8 (amended): whenever any of the five decoders returns at all, an
error is always InsufficientBytes — InvalidFormat is never produced by
the binary decoders — and inner decode errors are propagated to the
caller unchanged, with no wrapping or translation. -/
theorem c8_error_vocabulary_and_propagation :
    (∀ (b : List Byte) (e : BitcoinError),
      CompactSize.from_bytes b = .err e → e = .insufficientBytes) ∧
    (∀ (b : List Byte) (e : BitcoinError),
      OutPoint.from_bytes b = .err e → e = .insufficientBytes) ∧
    (∀ (b : List Byte) (e : BitcoinError),
      Script.from_bytes b = .err e → e = .insufficientBytes) ∧
    (∀ (b : List Byte) (e : BitcoinError),
      TransactionInput.from_bytes b = .err e → e = .insufficientBytes) ∧
    (∀ (b : List Byte) (e : BitcoinError),
      BitcoinTransaction.from_bytes b = .err e → e = .insufficientBytes) ∧
    (∀ (b : List Byte) (e : BitcoinError),
      CompactSize.from_bytes b = .err e → Script.from_bytes b = .err e) ∧
    (∀ (b : List Byte) (e : BitcoinError),
      OutPoint.from_bytes b = .err e → TransactionInput.from_bytes b = .err e) ∧
    (∀ (b : List Byte) (po : OutPoint) (c₁ : Nat) (e : BitcoinError),
      OutPoint.from_bytes b = .ok po c₁ → Script.from_bytes (b.drop c₁) = .err e →
        TransactionInput.from_bytes b = .err e) ∧
    (∀ (b : List Byte) (e : BitcoinError), ¬ b.length < 4 →
      CompactSize.from_bytes (b.drop 4) = .err e →
        BitcoinTransaction.from_bytes b = .err e) :=
  ⟨fun _ _ h => CompactSize.compact_err_eq h,
   fun _ _ h => OutPoint.outpoint_err_eq h,
   fun _ _ h => Script.script_err_eq h,
   fun _ _ h => TransactionInput.input_err_eq h,
   fun _ _ h => BitcoinTransaction.tx_err_eq h,
   fun _ _ h => Script.err_propagate h,
   fun _ _ h => TransactionInput.err_propagate_outpoint h,
   fun _ _ _ _ hop hsc => TransactionInput.err_propagate_script hop hsc,
   fun _ _ h4 hcs => BitcoinTransaction.err_propagate_count h4 hcs⟩

/-- C8 witness: the empty buffer makes OutPoint.from_bytes fail with
InsufficientBytes, and that exact error is what
TransactionInput.from_bytes returns on the empty buffer. -/
theorem c8_error_vocabulary_and_propagation_witness :
    TransactionInput.from_bytes ([] : List Byte) = .err .insufficientBytes :=
  c8_error_vocabulary_and_propagation.2.2.2.2.2.2.1 [] .insufficientBytes (by decide)

/-- C4 witness: a 4-byte buffer headed by `0xFF` is in the
too-short-for-class region of the iff. -/
theorem c4_truncation_detection_witness :
    CompactSize.from_bytes [(0xFF : Byte), 1, 2, 3] = .err .insufficientBytes :=
  (c4_truncation_detection.1 [(0xFF : Byte), 1, 2, 3]).mpr (by decide)
